import Mathlib

/-!
# Verification of the go-metadata-server tree walker

A shallow embedding of `src/main.go`: the concurrent recursive walker
`filepathToJSONMetadata`, the gzip size estimator `gzipFile`, and the HTTP
handler `fileMetadataHandler`, together with theorems settling the spec's
claims about them.

Concurrency is modelled explicitly: every recursive invocation reports the
sequence of values it sends on its result channel, and each directory node
consumes its children's messages in an *arrival order* chosen by a schedule
(an arbitrary interleaving of the concurrent child tasks).  A schedule is a
function from a node's index path to the list of picks that determines in
which order the children's channel sends are received by the parent loop.
The model additionally counts, for each run, how many spawned child tasks
are left blocked on their channel send after their parent has returned —
the observable that the structured-concurrency claims are about.
-/

namespace MetadataServer

mutual
/-- The filesystem snapshot a walk runs against.  Each entry carries its base
name (what `fileInfo.Name()` returns for its path), a `readable` flag
(`os.Open`/`os.ReadDir` succeed iff it is set; when clear they fail with a
permission error), its modification time, and, for a file, its content bytes,
for a directory, its entries in filesystem enumeration order. -/
inductive FsEntry : Type where
  | file (name : String) (readable : Bool) (modTime : Int) (content : List Nat)
  | dir (name : String) (readable : Bool) (modTime : Int) (entries : FsEntries)

/-- A list of directory entries, mutually defined with `FsEntry`. -/
inductive FsEntries : Type where
  | nil : FsEntries
  | cons (head : FsEntry) (tail : FsEntries) : FsEntries
end

/-- Base name of an entry, as `os.FileInfo.Name()` reports it. -/
def FsEntry.name : FsEntry → String
  | .file n _ _ _ => n
  | .dir n _ _ _ => n

/-- The names of a directory's entries, in enumeration order. -/
def FsEntries.names : FsEntries → List String
  | .nil => []
  | .cons e rest => e.name :: rest.names

/-- Number of entries, as `len(files)` after `os.ReadDir`. -/
def FsEntries.length : FsEntries → Nat
  | .nil => 0
  | .cons _ rest => rest.length + 1

/-- Mirrors the Go struct `FileMetadata` (`src/main.go:17-22`).  `time.Time`
is modelled as an integer timestamp and `int64` as `Int`. -/
structure FileMetadata : Type where
  filename : String
  lastModifiedDate : Int
  fileSizeGzipped : Int
  files : List FileMetadata

/-- The zero value `FileMetadata{}` of the Go struct (empty name, zero time,
zero size, nil `Files`). -/
def zeroMeta : FileMetadata := ⟨"", 0, 0, []⟩

/-- The error kinds the walker can produce: `notExist` (ENOENT, the only one
recognised by `os.IsNotExist`), `notDir` (ENOTDIR, from opening a path that
descends through a non-directory; `os.IsNotExist` does not recognise it),
`permission` (EACCES from `os.Open`), `ioError` (any other read failure). -/
inductive GoError : Type where
  | notExist : GoError
  | notDir : GoError
  | permission : GoError
  | ioError : GoError
deriving DecidableEq, Repr

/-- Mirrors the Go struct `result` (`src/main.go:24-27`): a metadata value
plus an error (`none` models a nil error). -/
structure GoResult : Type where
  result : FileMetadata
  error : Option GoError

/-- Modelled from the spec (§4.1) and the gzip format: the DEFLATE body
length produced by the standard library compressor, which is not part of this
repository's source.  Deterministic in the input; for empty input the Go
flate writer emits a 5-byte final stored block, and the model uses a stored
encoding for nonempty input as well. -/
def flateLen (content : List Nat) : Nat :=
  match content with
  | [] => 5
  | _ => 5 + content.length

/-- Modelled from the spec (§4.1): `gzipFile` (`src/main.go:29-43`) feeds the
file through `compress/gzip` and returns the length of the compressed output:
a 10-byte gzip header, the DEFLATE body, and an 8-byte trailer.  In the model
a successfully opened file always reads and compresses successfully. -/
def gzipFile (content : List Nat) : Nat :=
  10 + flateLen content + 8

/-- A schedule: for each directory node of the walk (addressed by its reverse
index path from the root), the list of picks that fixes the arrival order of
its children's channel sends.  Pick `k` receives, among the messages still
pending, the one at position `k % pending`; when the picks run out the
remaining messages arrive in their spawn order. -/
def Sched : Type := List Nat → List Nat

/-- The sub-schedule governing the subtree rooted at child index `i`. -/
def Sched.child (s : Sched) (i : Nat) : Sched :=
  fun ixs => s (i :: ixs)

/-- The arrival order on the shared channel `c`: an arbitrary interleaving of
the concurrent senders, chosen by the picks. -/
def shuffle {α : Type} : List Nat → List α → List α
  | [], xs => xs
  | _ :: _, [] => []
  | k :: ks, x :: xs =>
    let i := k % (x :: xs).length
    (x :: xs).getD i x :: shuffle ks ((x :: xs).eraseIdx i)

/-- The parent's collection loop (`src/main.go:83-89`): consume arrivals in
order, appending each successful result to `subfiles`; at the first error
return it, leaving the remaining messages unconsumed (`.inr` carries the
error and the number of messages never received, whose senders stay blocked
on the unbuffered channel). -/
def collect : List GoResult → List FileMetadata ⊕ (GoError × Nat)
  | [] => .inl []
  | r :: rest =>
    match r.error with
    | some e => .inr (e, rest.length)
    | none =>
      match collect rest with
      | .inl subfiles => .inl (r.result :: subfiles)
      | .inr p => .inr p

/-- One run of an invocation: the sequence of values it sends on its result
channel, and the number of tasks spawned in its subtree that are left blocked
on a channel send after every ancestor that could consume them has returned. -/
structure WalkOut : Type where
  sends : List GoResult
  leaked : Nat

mutual
/-- Embedding of `filepathToJSONMetadata` (`src/main.go:45-113`) run against
the snapshot entry its path resolves to.  `os.Open` fails with a permission
error when the entry is unreadable; `os.Stat` then reports name, time and
kind.  A directory spawns one recursive task per entry on the shared channel
`c`, the arrival order of their sends is chosen by the schedule, and the
collection loop merges them.  A file is fed to `gzipFile`. -/
def filepathToJSONMetadata (entry : FsEntry) (sched : Sched) : WalkOut :=
  match entry with
  | .file name readable modTime content =>
    if readable then
      ⟨[⟨⟨name, modTime, (gzipFile content : Nat), []⟩, none⟩], 0⟩
    else
      ⟨[⟨zeroMeta, some .permission⟩], 0⟩
  | .dir name readable modTime entries =>
    if readable then
      let outs := walkChildren entries 0 sched
      let arrivals := shuffle (sched []) (outs.map WalkOut.sends).flatten
      let childLeaks := (outs.map WalkOut.leaked).sum
      match collect arrivals with
      | .inr (e, pending) => ⟨[⟨zeroMeta, some e⟩], childLeaks + pending⟩
      | .inl subfiles =>
        ⟨[⟨⟨name, modTime, 0, subfiles⟩, none⟩], childLeaks⟩
    else
      ⟨[⟨zeroMeta, some .permission⟩], 0⟩

/-- The fan-out loop (`src/main.go:69-75`): one concurrent recursive
invocation per directory entry, each handed the sub-schedule of its index. -/
def walkChildren (es : FsEntries) (i : Nat) (sched : Sched) : List WalkOut :=
  match es with
  | .nil => []
  | .cons e rest =>
    filepathToJSONMetadata e (sched.child i) :: walkChildren rest (i + 1) sched
end

/-- First-match lookup of a name among a directory's entries. -/
def findEntry (n : String) : FsEntries → Option FsEntry
  | .nil => none
  | .cons e rest => if e.name = n then some e else findEntry n rest

/-- Path resolution against the snapshot, with the errno `os.Open` reports
when the lookup fails: a component missing from a directory gives ENOENT
(`notExist`); a path that descends through an existing file gives ENOTDIR
(`notDir`), which `os.IsNotExist` does not recognise; descending into an
inaccessible directory gives EACCES (`permission`; the model's single
`readable` flag stands for the directory's access bits). -/
def resolve : FsEntry → List String → Except GoError FsEntry
  | e, [] => .ok e
  | .file _ _ _ _, _ :: _ => .error .notDir
  | .dir _ rd _ entries, n :: rest =>
    if rd then
      match findEntry n entries with
      | none => .error .notExist
      | some e => resolve e rest
    else .error .permission

/-- Whether an entry exists at the path: pure structure, no permissions. -/
def pathExists : FsEntry → List String → Bool
  | _, [] => true
  | .file _ _ _ _, _ :: _ => false
  | .dir _ _ _ entries, n :: rest =>
    match findEntry n entries with
    | none => false
    | some e => pathExists e rest

/-- The walker as invoked on a path (`src/main.go:126`): `os.Open` fails with
the lookup's errno when the path cannot be resolved, otherwise the walk runs
on the resolved entry. -/
def walkPath (root : FsEntry) (path : List String) (sched : Sched) : WalkOut :=
  match resolve root path with
  | .error e => ⟨[⟨zeroMeta, some e⟩], 0⟩
  | .ok e => filepathToJSONMetadata e sched

/-- One observable action of the HTTP handler on its response writer. -/
inductive RespAction : Type where
  | httpError (msg : String) (code : Nat) : RespAction
  | jsonBody (m : FileMetadata) : RespAction
  | setHeader (k v : String) : RespAction

/-- Embedding of `fileMetadataHandler` (`src/main.go:129-143`) from the point
the walk's result has been received: a not-exist error gets a 404 and the
handler returns; any other error gets a 500 and then falls through to the
JSON encoder, which writes `res.result` to the same response; JSON encoding
of the record is modelled as always succeeding, and the Content-Type header
is set last. -/
def fileMetadataHandler (res : GoResult) : List RespAction :=
  match res.error with
  | some e =>
    if e = .notExist then
      [.httpError "File not found" 404]
    else
      [.httpError "Error reading file " 500, .jsonBody res.result,
        .setHeader "Content-Type" "application/json"]
  | none =>
    [.jsonBody res.result, .setHeader "Content-Type" "application/json"]

/-! ### Basic lemmas about the arrival-order and collection machinery -/

/-- Picking the element at a valid index and erasing it is a permutation. -/
theorem getD_cons_eraseIdx_perm {α : Type} :
    ∀ (l : List α) (d : α) (i : Nat), i < l.length →
      (l.getD i d :: l.eraseIdx i).Perm l := by
  intro l
  induction l with
  | nil => intro d i h; exact absurd h (Nat.not_lt_zero i)
  | cons x xs ih =>
    intro d i h
    cases i with
    | zero => simp
    | succ j =>
      have hj : j < xs.length := Nat.lt_of_succ_lt_succ h
      have step := ih d j hj
      simp only [List.getD_cons_succ, List.eraseIdx_cons_succ]
      exact (List.Perm.swap x _ _).trans (step.cons x)

/-- Any arrival order is a permutation of the messages sent on the channel. -/
theorem shuffle_perm {α : Type} : ∀ (ks : List Nat) (xs : List α),
    (shuffle ks xs).Perm xs
  | [], _ => List.Perm.refl _
  | _ :: _, [] => List.Perm.refl _
  | k :: ks, x :: xs => by
    simp only [shuffle]
    exact ((shuffle_perm ks _).cons _).trans
      (getD_cons_eraseIdx_perm (x :: xs) x _ (Nat.mod_lt _ (by simp)))

/-- When every message carries a nil error the collection loop consumes them
all and returns their records in arrival order. -/
theorem collect_inl_of_all_ok : ∀ (l : List GoResult),
    (∀ r ∈ l, r.error = none) → collect l = .inl (l.map GoResult.result) := by
  intro l
  induction l with
  | nil => intro _; rfl
  | cons r rest ih =>
    intro h
    have hr : r.error = none := h r (List.mem_cons_self r rest)
    have hrest := ih (fun x hx => h x (List.mem_cons_of_mem r hx))
    simp [collect, hr, hrest]

/-- If the collection loop consumes everything, every message was ok and the
collected records are the messages' records in arrival order. -/
theorem collect_inl_elim : ∀ (l : List GoResult) (ms : List FileMetadata),
    collect l = .inl ms →
      (∀ r ∈ l, r.error = none) ∧ ms = l.map GoResult.result := by
  intro l
  induction l with
  | nil =>
    intro ms h
    simp only [collect, Sum.inl.injEq] at h
    simp [h.symm]
  | cons r rest ih =>
    intro ms h
    cases he : r.error with
    | some e => simp [collect, he] at h
    | none =>
      cases hc : collect rest with
      | inl subs =>
        simp only [collect, he, hc, Sum.inl.injEq] at h
        obtain ⟨hall, hmap⟩ := ih subs hc
        subst h
        refine ⟨?_, by simp [hmap]⟩
        intro x hx
        rcases List.mem_cons.mp hx with hx | hx
        · subst hx; exact he
        · exact hall x hx
      | inr p => simp [collect, he, hc] at h

/-- A failing message anywhere among the arrivals makes the collection loop
return an error. -/
theorem collect_inr_of_error (l : List GoResult) (r : GoResult) (hr : r ∈ l)
    (he : r.error ≠ none) : ∃ p, collect l = .inr p := by
  cases hc : collect l with
  | inl ms => exact absurd ((collect_inl_elim l ms hc).1 r hr) he
  | inr p => exact ⟨p, rfl⟩

/-- The number of entries a directory's fan-out loop spawns. -/
theorem walkChildren_length : ∀ (es : FsEntries) (i : Nat) (s : Sched),
    (walkChildren es i s).length = es.length
  | .nil, _, _ => rfl
  | .cons _ rest, i, s => by
    simp [walkChildren, FsEntries.length, walkChildren_length rest (i + 1) s]

/-- A directory has as many entry names as entries. -/
theorem names_length : ∀ (es : FsEntries), es.names.length = es.length
  | .nil => rfl
  | .cons _ rest => by
    simp [FsEntries.names, FsEntries.length, names_length rest]

/-! ### Shape of a single invocation's channel traffic -/

/-- All messages a directory's spawned children send on the shared channel,
in spawn order. -/
def channelSends (es : FsEntries) (i : Nat) (s : Sched) : List GoResult :=
  ((walkChildren es i s).map WalkOut.sends).flatten

/-- Unfolding of the walker on a readable directory in terms of its
children's channel traffic. -/
theorem walk_dir_eq (n : String) (t : Int) (es : FsEntries) (s : Sched) :
    filepathToJSONMetadata (.dir n true t es) s =
      match collect (shuffle (s []) (channelSends es 0 s)) with
      | .inr (e, pending) =>
        ⟨[⟨zeroMeta, some e⟩],
          ((walkChildren es 0 s).map WalkOut.leaked).sum + pending⟩
      | .inl subfiles =>
        ⟨[⟨⟨n, t, 0, subfiles⟩, none⟩],
          ((walkChildren es 0 s).map WalkOut.leaked).sum⟩ := rfl

/-- The channel traffic of a nonempty directory splits into the first child's
sends followed by the remaining children's. -/
theorem channelSends_cons (e : FsEntry) (rest : FsEntries) (i : Nat)
    (s : Sched) :
    channelSends (.cons e rest) i s =
      (filepathToJSONMetadata e (s.child i)).sends ++
        channelSends rest (i + 1) s := by
  simp [channelSends, walkChildren]

/-- Every invocation sends exactly one value on its result channel. -/
theorem walk_sends_singleton (e : FsEntry) (s : Sched) :
    ∃ r, (filepathToJSONMetadata e s).sends = [r] := by
  cases e with
  | file n r t c => cases r <;> exact ⟨_, rfl⟩
  | dir n r t es =>
    cases r with
    | false => exact ⟨_, rfl⟩
    | true =>
      rw [walk_dir_eq]
      rcases hc : collect (shuffle (s []) (channelSends es 0 s)) with subs | ⟨e1, k⟩ <;>
        simp [hc]

/-- A successful record carries the base name reported by `fileInfo.Name()`. -/
theorem walk_ok_filename (e : FsEntry) (s : Sched) (m : FileMetadata)
    (h : (filepathToJSONMetadata e s).sends = [⟨m, none⟩]) :
    m.filename = e.name := by
  cases e with
  | file n r t c =>
    cases r with
    | true =>
      simp only [filepathToJSONMetadata, if_pos, List.cons.injEq,
        GoResult.mk.injEq, and_true] at h
      rw [← h]
      rfl
    | false => simp [filepathToJSONMetadata] at h
  | dir n r t es =>
    cases r with
    | false => simp [filepathToJSONMetadata] at h
    | true =>
      rw [walk_dir_eq] at h
      rcases hc : collect (shuffle (s []) (channelSends es 0 s)) with subs | ⟨e1, k⟩ <;>
        simp [hc] at h
      rw [← h]
      rfl

/-- Every error send carries the zero `FileMetadata{}` value. -/
theorem walk_error_shape (e : FsEntry) (s : Sched) (m : FileMetadata)
    (er : GoError)
    (h : (filepathToJSONMetadata e s).sends = [⟨m, some er⟩]) : m = zeroMeta := by
  cases e with
  | file n r t c =>
    cases r with
    | true => simp [filepathToJSONMetadata] at h
    | false =>
      simp [filepathToJSONMetadata] at h
      exact h.1.symm
  | dir n r t es =>
    cases r with
    | false =>
      simp [filepathToJSONMetadata] at h
      exact h.1.symm
    | true =>
      rw [walk_dir_eq] at h
      rcases hc : collect (shuffle (s []) (channelSends es 0 s)) with subs | ⟨e1, k⟩ <;>
        simp [hc] at h
      exact h.1.symm

/-- When every child send is successful, the channel messages' names are the
directory's entry names, one per entry, in spawn order. -/
theorem channelSends_names : ∀ (es : FsEntries) (i : Nat) (s : Sched),
    (∀ r ∈ channelSends es i s, r.error = none) →
      (channelSends es i s).map (fun r => r.result.filename) = es.names
  | .nil, _, _, _ => rfl
  | .cons e rest, i, s, h => by
    obtain ⟨r, hr⟩ := walk_sends_singleton e (s.child i)
    rw [channelSends_cons, hr] at h ⊢
    have hok : r.error = none := h r (by simp)
    have hname : r.result.filename = e.name := by
      apply walk_ok_filename e (s.child i)
      rw [hr]
      cases r with
      | mk res err => cases hok; rfl
    have hrest := channelSends_names rest (i + 1) s
      (fun x hx => h x (List.mem_append_right _ hx))
    simp [FsEntries.names, hname, hrest]

/-! ### Failure propagation -/

mutual
/-- Whether some node of the subtree fails its open/read (the situations in
which any recursive invocation produces an error). -/
def hasFailure : FsEntry → Bool
  | .file _ r _ _ => !r
  | .dir _ r _ es => !r || anyFailure es

/-- Whether some entry of the list has a failing node in its subtree. -/
def anyFailure : FsEntries → Bool
  | .nil => false
  | .cons e rest => hasFailure e || anyFailure rest
end

/-- Induction motive on entries: the walk errors exactly when the subtree has
a failing node, and otherwise produces a successful record. -/
def FailMotive (e : FsEntry) : Prop :=
  ∀ s : Sched,
    (hasFailure e = true →
      ∃ er, (filepathToJSONMetadata e s).sends = [⟨zeroMeta, some er⟩]) ∧
    (hasFailure e = false →
      ∃ m, (filepathToJSONMetadata e s).sends = [⟨m, none⟩])

/-- Induction motive on entry lists: the children's channel traffic carries
an error exactly when some entry's subtree has a failing node. -/
def FailMotives (es : FsEntries) : Prop :=
  ∀ (i : Nat) (s : Sched),
    (anyFailure es = true → ∃ r ∈ channelSends es i s, r.error ≠ none) ∧
    (anyFailure es = false → ∀ r ∈ channelSends es i s, r.error = none)

theorem failMotive_file (n : String) (r : Bool) (t : Int) (c : List Nat) :
    FailMotive (.file n r t c) := by
  intro s
  cases r with
  | true =>
    refine ⟨fun h => ?_, fun _ => ⟨_, rfl⟩⟩
    simp [hasFailure] at h
  | false =>
    refine ⟨fun _ => ⟨.permission, rfl⟩, fun h => ?_⟩
    simp [hasFailure] at h

theorem failMotive_dir (n : String) (r : Bool) (t : Int) (es : FsEntries)
    (ih : FailMotives es) : FailMotive (.dir n r t es) := by
  intro s
  cases r with
  | false =>
    refine ⟨fun _ => ⟨.permission, rfl⟩, fun h => ?_⟩
    simp [hasFailure] at h
  | true =>
    have hperm := shuffle_perm (s []) (channelSends es 0 s)
    constructor
    · intro h
      have hf : anyFailure es = true := by simpa [hasFailure] using h
      obtain ⟨r0, hr0mem, hr0err⟩ := (ih 0 s).1 hf
      have hr0arr : r0 ∈ shuffle (s []) (channelSends es 0 s) :=
        hperm.mem_iff.mpr hr0mem
      obtain ⟨⟨e1, k⟩, hp⟩ := collect_inr_of_error _ r0 hr0arr hr0err
      rw [walk_dir_eq, hp]
      exact ⟨e1, rfl⟩
    · intro h
      have hf : anyFailure es = false := by simpa [hasFailure] using h
      have hall := (ih 0 s).2 hf
      have hallarr : ∀ x ∈ shuffle (s []) (channelSends es 0 s), x.error = none :=
        fun x hx => hall x (hperm.mem_iff.mp hx)
      rw [walk_dir_eq, collect_inl_of_all_ok _ hallarr]
      exact ⟨_, rfl⟩

theorem failMotives_nil : FailMotives .nil := by
  intro i s
  constructor
  · intro h
    simp [anyFailure] at h
  · intro _ r hr
    simp [channelSends, walkChildren] at hr

theorem failMotives_cons (e : FsEntry) (rest : FsEntries)
    (ih1 : FailMotive e) (ih2 : FailMotives rest) : FailMotives (.cons e rest) := by
  intro i s
  constructor
  · intro h
    simp only [anyFailure, Bool.or_eq_true] at h
    rcases h with h | h
    · obtain ⟨er, hs⟩ := (ih1 (s.child i)).1 h
      refine ⟨⟨zeroMeta, some er⟩, ?_, by simp⟩
      rw [channelSends_cons, hs]
      simp
    · obtain ⟨r0, hmem, herr⟩ := (ih2 (i + 1) s).1 h
      refine ⟨r0, ?_, herr⟩
      rw [channelSends_cons]
      exact List.mem_append_right _ hmem
  · intro h
    simp only [anyFailure, Bool.or_eq_false_iff] at h
    intro r hr
    rw [channelSends_cons] at hr
    rcases List.mem_append.mp hr with hr | hr
    · obtain ⟨m, hs⟩ := (ih1 (s.child i)).2 h.1
      rw [hs] at hr
      simp only [List.mem_singleton] at hr
      rw [hr]
    · exact (ih2 (i + 1) s).2 h.2 r hr

/-- Every entry satisfies the failure-propagation motive. -/
theorem walk_failure_spec (e : FsEntry) : FailMotive e :=
  @FsEntry.rec FailMotive FailMotives failMotive_file failMotive_dir
    failMotives_nil failMotives_cons e

/-! ### The leaf-xor-directory record invariant -/

/-- At every depth, a record either has no children (a leaf, carrying its
compressed size) or has a `fileSizeGzipped` of `0` (a directory record, whose
children satisfy the same invariant; the children list may be empty).  In
particular no record holds both a nonzero size and children. -/
inductive LeafXorDir : FileMetadata → Prop where
  | leaf : ∀ (n : String) (t sz : Int), LeafXorDir ⟨n, t, sz, []⟩
  | dirRecord : ∀ (n : String) (t : Int) (files : List FileMetadata),
      (∀ m ∈ files, LeafXorDir m) → LeafXorDir ⟨n, t, 0, files⟩

/-- Induction motive on entries: successful records satisfy the invariant. -/
def InvMotive (e : FsEntry) : Prop :=
  ∀ (s : Sched) (m : FileMetadata),
    (filepathToJSONMetadata e s).sends = [⟨m, none⟩] → LeafXorDir m

/-- Induction motive on entry lists: successful channel messages carry
records satisfying the invariant. -/
def InvMotives (es : FsEntries) : Prop :=
  ∀ (i : Nat) (s : Sched) (r : GoResult),
    r ∈ channelSends es i s → r.error = none → LeafXorDir r.result

theorem invMotive_file (n : String) (r : Bool) (t : Int) (c : List Nat) :
    InvMotive (.file n r t c) := by
  intro s m h
  cases r with
  | true =>
    simp only [filepathToJSONMetadata, if_pos, List.cons.injEq,
      GoResult.mk.injEq, and_true] at h
    rw [← h]
    exact LeafXorDir.leaf n t _
  | false => simp [filepathToJSONMetadata] at h

theorem invMotive_dir (n : String) (r : Bool) (t : Int) (es : FsEntries)
    (ih : InvMotives es) : InvMotive (.dir n r t es) := by
  intro s m h
  cases r with
  | false => simp [filepathToJSONMetadata] at h
  | true =>
    rw [walk_dir_eq] at h
    rcases hc : collect (shuffle (s []) (channelSends es 0 s)) with subs | ⟨e1, k⟩ <;>
      simp [hc] at h
    obtain ⟨hall, hmap⟩ := collect_inl_elim _ _ hc
    rw [← h]
    refine LeafXorDir.dirRecord n t subs ?_
    intro x hx
    rw [hmap] at hx
    obtain ⟨r0, hr0, rfl⟩ := List.mem_map.mp hx
    have hr0c : r0 ∈ channelSends es 0 s :=
      (shuffle_perm (s []) (channelSends es 0 s)).mem_iff.mp hr0
    exact ih 0 s r0 hr0c (hall r0 hr0)

theorem invMotives_nil : InvMotives .nil := by
  intro i s r hr
  simp [channelSends, walkChildren] at hr

theorem invMotives_cons (e : FsEntry) (rest : FsEntries)
    (ih1 : InvMotive e) (ih2 : InvMotives rest) : InvMotives (.cons e rest) := by
  intro i s r hr herr
  rw [channelSends_cons] at hr
  rcases List.mem_append.mp hr with hr | hr
  · obtain ⟨r0, hs⟩ := walk_sends_singleton e (s.child i)
    rw [hs] at hr
    simp only [List.mem_singleton] at hr
    subst hr
    apply ih1 (s.child i) r.result
    rw [hs]
    cases r with
    | mk res err => cases herr; rfl
  · exact ih2 (i + 1) s r hr herr

/-- Every entry satisfies the record-invariant motive. -/
theorem walk_invariant_spec (e : FsEntry) : InvMotive e :=
  @FsEntry.rec InvMotive InvMotives invMotive_file invMotive_dir
    invMotives_nil invMotives_cons e

/-! ### Concrete snapshots and schedules -/

/-- A readable file `a.txt` with two content bytes. -/
def entA : FsEntry := .file "a.txt" true 1 [104, 105]

/-- A readable file `b.txt` with one content byte. -/
def entB : FsEntry := .file "b.txt" true 2 [104]

/-- An unreadable file: its `os.Open` fails with a permission error. -/
def entBad : FsEntry := .file "bad.txt" false 3 []

/-- The entries `a.txt`, `b.txt` in enumeration order. -/
def entriesAB : FsEntries := .cons entA (.cons entB .nil)

/-- A directory with entries `a.txt`, `b.txt`. -/
def dirAB : FsEntry := .dir "root" true 10 entriesAB

/-- A directory whose first entry is unreadable and whose second is fine. -/
def dirBadB : FsEntry := .dir "root" true 10 (.cons entBad (.cons entB .nil))

/-- The schedule under which all messages arrive in spawn order. -/
def enumSched : Sched := fun _ => []

/-- The schedule under which the root's children's messages arrive in
reverse spawn order. -/
def swapSched : Sched := fun _ => [1]

/-! ### The claims -/

/-- C1: for every directory on which the walk succeeds, under any task
interleaving, the returned children sequence contains exactly one record per
directory entry, and the record names are exactly the entries' base names,
each exactly once (a bijection between entries and output records). -/
theorem claim_C1_children_bijection (n : String) (r : Bool) (t : Int)
    (es : FsEntries) (s : Sched) (m : FileMetadata)
    (h : (filepathToJSONMetadata (.dir n r t es) s).sends = [⟨m, none⟩]) :
    m.files.length = es.length ∧
      (m.files.map FileMetadata.filename).Perm es.names := by
  cases r with
  | false => simp [filepathToJSONMetadata] at h
  | true => ?_
  rw [walk_dir_eq] at h
  rcases hc : collect (shuffle (s []) (channelSends es 0 s)) with subs | ⟨e1, k⟩ <;>
    simp [hc] at h
  obtain ⟨hall, hmap⟩ := collect_inl_elim _ _ hc
  have hperm := shuffle_perm (s []) (channelSends es 0 s)
  have hallc : ∀ r ∈ channelSends es 0 s, r.error = none :=
    fun r hr => hall r (hperm.mem_iff.mpr hr)
  have hnames := channelSends_names es 0 s hallc
  subst h
  have hm : subs.map FileMetadata.filename =
      (shuffle (s []) (channelSends es 0 s)).map (fun r => r.result.filename) := by
    rw [hmap, List.map_map]
    rfl
  have hp2 : (subs.map FileMetadata.filename).Perm es.names := by
    rw [hm, ← hnames]
    exact hperm.map _
  refine ⟨?_, hp2⟩
  have hl := hp2.length_eq
  rw [List.length_map, names_length es] at hl
  exact hl

/-- Witness for C1 at a concrete two-entry directory in the spawn-order
interleaving. -/
theorem claim_C1_witness :
    (⟨"root", 10, 0, [⟨"a.txt", 1, 25, []⟩, ⟨"b.txt", 2, 24, []⟩]⟩ :
        FileMetadata).files.length = entriesAB.length ∧
      ((⟨"root", 10, 0, [⟨"a.txt", 1, 25, []⟩, ⟨"b.txt", 2, 24, []⟩]⟩ :
          FileMetadata).files.map FileMetadata.filename).Perm entriesAB.names :=
  claim_C1_children_bijection "root" true 10 entriesAB enumSched _ rfl

/-- C2 fails on the code: when a child fails, the parent exits its collection
loop and returns without draining its siblings.  At `dirBadB`, under the
interleaving where the unreadable child's error arrives first, the parent
reports the failure while the second spawned child task is still blocked on
its send to the unbuffered channel: one leaked task, where the claim requires
zero. -/
theorem claim_C2_leaked_task :
    (filepathToJSONMetadata dirBadB enumSched).sends =
        [⟨zeroMeta, some .permission⟩] ∧
      (filepathToJSONMetadata dirBadB enumSched).leaked = 1 := ⟨rfl, rfl⟩

/-- C3 fails on the code: the collection loop appends results in channel
arrival order, not enumeration order.  Under the interleaving where `b.txt`'s
result arrives before `a.txt`'s, the children sequence is reversed relative
to the directory's enumeration order. -/
theorem claim_C3_arrival_order :
    ((filepathToJSONMetadata dirAB swapSched).sends.map
        (fun r => r.result.files.map FileMetadata.filename)) =
        [["b.txt", "a.txt"]] ∧
      entriesAB.names = ["a.txt", "b.txt"] := by
  exact ⟨by decide, rfl⟩

/-- C4: the walk is all-or-nothing under every interleaving — it sends an
error (paired with the zero record, i.e. no tree) exactly when some node of
the subtree fails, and a successful record exactly when no node fails. -/
theorem claim_C4_all_or_nothing (e : FsEntry) (s : Sched) :
    ((∃ er, (filepathToJSONMetadata e s).sends = [⟨zeroMeta, some er⟩]) ↔
        hasFailure e = true) ∧
      ((∃ m, (filepathToJSONMetadata e s).sends = [⟨m, none⟩]) ↔
        hasFailure e = false) := by
  have h := walk_failure_spec e s
  constructor
  · constructor
    · rintro ⟨er, her⟩
      cases hf : hasFailure e with
      | true => rfl
      | false =>
        obtain ⟨m, hm⟩ := h.2 hf
        rw [her] at hm
        simp at hm
    · exact h.1
  · constructor
    · rintro ⟨m, hm⟩
      cases hf : hasFailure e with
      | false => rfl
      | true =>
        obtain ⟨er, her⟩ := h.1 hf
        rw [hm] at her
        simp at her
    · exact h.2

/-- C5: every record the walk produces, at any depth, is a leaf (no
children) or a directory record (size zero, children possibly empty); no
record holds both a nonzero compressed size and children. -/
theorem claim_C5_leaf_xor_dir (e : FsEntry) (s : Sched) (m : FileMetadata)
    (h : (filepathToJSONMetadata e s).sends = [⟨m, none⟩]) : LeafXorDir m :=
  walk_invariant_spec e s m h

/-- Witness for C5 at a concrete directory walk. -/
theorem claim_C5_witness :
    LeafXorDir ⟨"root", 10, 0, [⟨"a.txt", 1, 25, []⟩, ⟨"b.txt", 2, 24, []⟩]⟩ :=
  claim_C5_leaf_xor_dir dirAB enumSched _ rfl

/-- C6 fails on the code: two invocations on the unchanged tree `dirAB`,
under two different task interleavings, produce different outputs — the
children order depends on scheduling. -/
theorem claim_C6_schedule_dependent :
    ((filepathToJSONMetadata dirAB enumSched).sends.map
        (fun r => r.result.files.map FileMetadata.filename)) =
        [["a.txt", "b.txt"]] ∧
      ((filepathToJSONMetadata dirAB swapSched).sends.map
          (fun r => r.result.files.map FileMetadata.filename)) =
        [["b.txt", "a.txt"]] ∧
      (filepathToJSONMetadata dirAB enumSched).sends ≠
        (filepathToJSONMetadata dirAB swapSched).sends := by
  refine ⟨by decide, by decide, fun hcontra => ?_⟩
  have h2 := congrArg
    (List.map (fun r => r.result.files.map FileMetadata.filename)) hcontra
  revert h2
  decide

/-- C7 fails as stated: the path `a.txt/x` does not exist on the snapshot,
yet the walk fails with the ENOTDIR error — `os.Open` on a path that
descends through an existing file reports ENOTDIR, which `os.IsNotExist`
does not recognise — not with the not-found kind the claim requires for
every nonexistent path. -/
theorem claim_C7_counterexample :
    pathExists dirAB ["a.txt", "x"] = false ∧
      walkPath dirAB ["a.txt", "x"] enumSched =
        ⟨[⟨zeroMeta, some .notDir⟩], 0⟩ ∧
      GoError.notDir ≠ GoError.notExist :=
  ⟨rfl, rfl, by decide⟩

/-- C7 (amended): a walk on a path whose lookup fails with ENOENT — a
component missing from a directory — fails with the not-found error and no
other kind, sending the zero record with it; in particular
`walk("/nonexistent")` fails with not-found. -/
theorem claim_C7_not_found (root : FsEntry) (path : List String) (s : Sched)
    (h : resolve root path = .error .notExist) :
    walkPath root path s = ⟨[⟨zeroMeta, some .notExist⟩], 0⟩ := by
  simp [walkPath, h]

/-- Witness for C7: `walk("/nonexistent")` fails with not-found. -/
theorem claim_C7_witness :
    walkPath dirAB ["nonexistent"] enumSched =
      ⟨[⟨zeroMeta, some .notExist⟩], 0⟩ :=
  claim_C7_not_found dirAB ["nonexistent"] enumSched rfl

/-- C8: a readable leaf yields a record with empty children and a
nonnegative compressed size, and the estimator's output on an empty file is
the fixed nonzero header-plus-trailer-only size. -/
theorem claim_C8_leaf_record (n : String) (t : Int) (c : List Nat) (s : Sched) :
    (filepathToJSONMetadata (.file n true t c) s).sends =
        [⟨⟨n, t, (gzipFile c : Nat), []⟩, none⟩] ∧
      (0 : Int) ≤ ((gzipFile c : Nat) : Int) ∧
      gzipFile [] = 23 ∧ 0 < gzipFile [] :=
  ⟨rfl, Int.natCast_nonneg _, rfl, by decide⟩

/-- C9 (implicit): every invocation sends exactly one value on its result
channel on every control path — either a record with nil error, or the zero
record with a non-nil error. -/
theorem claim_C9_single_send (e : FsEntry) (s : Sched) :
    ∃ r, (filepathToJSONMetadata e s).sends = [r] ∧
      (r.error = none ∨ (r.error ≠ none ∧ r.result = zeroMeta)) := by
  obtain ⟨r, hr⟩ := walk_sends_singleton e s
  cases r with
  | mk res err =>
    cases err with
    | none => exact ⟨⟨res, none⟩, hr, Or.inl rfl⟩
    | some er =>
      have hz := walk_error_shape e s res er hr
      exact ⟨⟨res, some er⟩, hr, Or.inr ⟨by simp, hz⟩⟩

/-- C10 (implicit): on a non-not-exist walk error the handler writes the 500
error message and then still encodes the zero-valued record as a JSON body
into the same response, while a not-exist error gets the 404 and no body. -/
theorem claim_C10_handler_error_body :
    fileMetadataHandler ⟨zeroMeta, some .permission⟩ =
        [.httpError "Error reading file " 500, .jsonBody zeroMeta,
          .setHeader "Content-Type" "application/json"] ∧
      fileMetadataHandler ⟨zeroMeta, some .ioError⟩ =
        [.httpError "Error reading file " 500, .jsonBody zeroMeta,
          .setHeader "Content-Type" "application/json"] ∧
      fileMetadataHandler ⟨zeroMeta, some .notDir⟩ =
        [.httpError "Error reading file " 500, .jsonBody zeroMeta,
          .setHeader "Content-Type" "application/json"] ∧
      fileMetadataHandler ⟨zeroMeta, some .notExist⟩ =
        [.httpError "File not found" 404] :=
  ⟨rfl, rfl, rfl, rfl⟩

end MetadataServer
